import Mathlib

/-!
Verification of the namespace-resolution and source-rewriting engine of the
`av-templates` extension (`src/extension.ts`).

Strings are modelled as `List Char`.  The JavaScript string primitives the
source relies on (`String.prototype.indexOf`, `substring`, `split`, `join`,
`toLowerCase`, `endsWith`, `includes`, `lastIndexOf`, `replace`) are embedded
first, with JavaScript's clamping and `-1` conventions kept intact; the
functions of `extension.ts` are then translated on top of them, and the
theorems at the end of the file settle the specification's claims about those
functions.
-/

namespace AvTemplates

/-- JavaScript index clamping: a negative index becomes `0`, an index past the
end of the string becomes the length.  Used by `substring`. -/
def jsClamp (n : Int) (len : Nat) : Nat :=
  if n < 0 then 0 else min n.toNat len

/-- `s.substring(a, b)` — clamps both arguments into `[0, s.length]` and swaps
them when `a > b`, per the ECMAScript specification. -/
def jsSubstring (s : List Char) (a b : Int) : List Char :=
  let a' := jsClamp a s.length
  let b' := jsClamp b s.length
  (s.drop (min a' b')).take (max a' b' - min a' b')

/-- `s.substring(a)` — from `a` (clamped) to the end of the string. -/
def jsSubstringFrom (s : List Char) (a : Int) : List Char :=
  jsSubstring s a (s.length : Int)

/-- Fuel-driven scan for the first index `≥ i` at which `needle` occurs in
`hay`; returns `none` when the fuel is exhausted. -/
def idxFrom (hay needle : List Char) : Nat → Nat → Option Nat
  | _, 0 => none
  | i, fuel + 1 =>
    if needle.isPrefixOf (hay.drop i) then some i
    else idxFrom hay needle (i + 1) fuel

/-- `hay.indexOf(needle, st)` — first occurrence of `needle` at an index
`≥ st` (with `st` clamped into `[0, hay.length]`), `-1` when there is none. -/
def jsIndexOfFrom (hay needle : List Char) (st : Int) : Int :=
  match idxFrom hay needle (jsClamp st hay.length)
      (hay.length + 1 - jsClamp st hay.length) with
  | some i => (i : Int)
  | none => -1

/-- `hay.indexOf(needle)`. -/
def jsIndexOf (hay needle : List Char) : Int :=
  jsIndexOfFrom hay needle 0

/-- `hay.includes(needle)`. -/
def jsIncludes (hay needle : List Char) : Bool :=
  decide (0 ≤ jsIndexOf hay needle)

/-- Last index at which `needle` occurs in `hay`, as an `Option`. -/
def jsLastIndexOfAux (needle : List Char) : List Char → Option Nat
  | [] => if needle = [] then some 0 else none
  | c :: rest =>
    match jsLastIndexOfAux needle rest with
    | some i => some (i + 1)
    | none => if needle.isPrefixOf (c :: rest) then some 0 else none

/-- `hay.lastIndexOf(needle)` — `-1` when `needle` does not occur. -/
def jsLastIndexOf (hay needle : List Char) : Int :=
  match jsLastIndexOfAux needle hay with
  | some i => (i : Int)
  | none => -1

/-- `s.split(sep)` for a one-character separator (the source only ever splits
on `path.sep`).  `"".split(sep)` is `[""]`, as in JavaScript. -/
def jsSplit (sep : Char) : List Char → List (List Char)
  | [] => [[]]
  | c :: rest =>
    match jsSplit sep rest with
    | [] => [[]]
    | h :: t => if c = sep then [] :: h :: t else (c :: h) :: t

/-- `parts.join(sep)`. -/
def jsJoin (sep : List Char) : List (List Char) → List Char
  | [] => []
  | [x] => x
  | x :: y :: t => x ++ sep ++ jsJoin sep (y :: t)

/-- `s.toLowerCase()` (ASCII case folding suffices for the inputs involved). -/
def jsToLowerCase (s : List Char) : List Char :=
  s.map Char.toLower

/-- `s.endsWith(suffix)`. -/
def jsEndsWith (s suffix : List Char) : Bool :=
  suffix.isSuffixOf s

/-- `s.replace(search, repl)` with a plain-string pattern: replaces the first
occurrence only, returns `s` unchanged when `search` does not occur. -/
def jsReplaceFirst (s search repl : List Char) : List Char :=
  let i := jsIndexOf s search
  if 0 ≤ i then s.take i.toNat ++ repl ++ s.drop (i.toNat + search.length)
  else s

/-! ### Lemmas about the JavaScript primitives -/

theorem jsClamp_natCast (n len : Nat) (h : n ≤ len) : jsClamp (n : Int) len = n := by
  simp [jsClamp, h]

theorem jsSubstring_zero_natCast (s : List Char) (b : Nat) (hb : b ≤ s.length) :
    jsSubstring s 0 (b : Int) = s.take b := by
  unfold jsSubstring
  rw [jsClamp_natCast b s.length hb]
  have h0 : jsClamp 0 s.length = 0 := by simp [jsClamp]
  rw [h0]
  simp

theorem jsSubstringFrom_natCast (s : List Char) (a : Nat) :
    jsSubstringFrom s (a : Int) = s.drop a := by
  unfold jsSubstringFrom jsSubstring
  simp only [jsClamp_natCast s.length s.length le_rfl]
  rcases Nat.le_total a s.length with h | h
  · simp only [jsClamp_natCast a s.length h]
    rw [Nat.min_eq_left h, Nat.max_eq_right h]
    exact List.take_of_length_le (by simp [Nat.le_sub_iff_add_le h, Nat.sub_add_cancel h,
      List.length_drop])
  · have : jsClamp (a : Int) s.length = s.length := by
      simp [jsClamp, Nat.min_eq_right h]
    rw [this, Nat.min_self, Nat.max_self, Nat.sub_self]
    simp [List.drop_eq_nil_of_le h]

theorem jsSubstringFrom_neg (s : List Char) (a : Int) (ha : a < 0) :
    jsSubstringFrom s a = s := by
  unfold jsSubstringFrom jsSubstring
  simp only [jsClamp_natCast s.length s.length le_rfl]
  have : jsClamp a s.length = 0 := by simp [jsClamp, ha]
  rw [this]
  simp [List.take_of_length_le]

theorem idxFrom_some {hay needle : List Char} :
    ∀ (fuel i j : Nat), idxFrom hay needle i fuel = some j →
      i ≤ j ∧ j < i + fuel ∧ needle.isPrefixOf (hay.drop j) = true ∧
        ∀ k, i ≤ k → k < j → needle.isPrefixOf (hay.drop k) = false := by
  intro fuel
  induction fuel with
  | zero => intro i j h; simp [idxFrom] at h
  | succ fuel ih =>
    intro i j h
    unfold idxFrom at h
    by_cases hp : needle.isPrefixOf (hay.drop i) = true
    · simp only [hp, if_true] at h
      obtain rfl : i = j := by injection h
      exact ⟨le_rfl, by omega, hp, fun k hk1 hk2 => absurd hk1 (by omega)⟩
    · simp only [hp, if_false] at h
      obtain ⟨h1, h2, h3, h4⟩ := ih (i + 1) j h
      refine ⟨by omega, by omega, h3, fun k hk1 hk2 => ?_⟩
      rcases Nat.eq_or_lt_of_le hk1 with rfl | hlt
      · exact Bool.eq_false_iff.mpr hp
      · exact h4 k hlt hk2

theorem idxFrom_isSome {hay needle : List Char} :
    ∀ (fuel i j : Nat), i ≤ j → j < i + fuel →
      needle.isPrefixOf (hay.drop j) = true →
      (idxFrom hay needle i fuel).isSome := by
  intro fuel
  induction fuel with
  | zero => intro i j h1 h2; omega
  | succ fuel ih =>
    intro i j h1 h2 h3
    unfold idxFrom
    by_cases hp : needle.isPrefixOf (hay.drop i) = true
    · simp [hp]
    · simp only [hp, if_false]
      rcases Nat.eq_or_lt_of_le h1 with rfl | hlt
      · exact absurd h3 hp
      · exact ih (i + 1) j hlt (by omega) h3

theorem jsClamp_le (n : Int) (len : Nat) : jsClamp n len ≤ len := by
  unfold jsClamp
  split
  · omega
  · exact Nat.min_le_right _ _

/-- When `j` is the first index `≥ st` at which `needle` occurs (and both are
within the string), `indexOf` returns exactly `j`. -/
theorem jsIndexOfFrom_eq_of_first {hay needle : List Char} {st j : Nat}
    (hst : st ≤ hay.length) (hj : j ≤ hay.length) (hstj : st ≤ j)
    (hpre : needle.isPrefixOf (hay.drop j) = true)
    (hmin : ∀ k, st ≤ k → k < j → needle.isPrefixOf (hay.drop k) = false) :
    jsIndexOfFrom hay needle (st : Int) = (j : Int) := by
  unfold jsIndexOfFrom
  rw [jsClamp_natCast st hay.length hst]
  have hfuel : j < st + (hay.length + 1 - st) := by omega
  have hsome := idxFrom_isSome (hay.length + 1 - st) st j hstj hfuel hpre
  obtain ⟨k, hk⟩ := Option.isSome_iff_exists.mp hsome
  obtain ⟨hk1, _, hk3, hk4⟩ := idxFrom_some _ _ _ hk
  have hkj : k = j := by
    rcases Nat.lt_trichotomy k j with h | h | h
    · exact absurd hk3 (by simp [hmin k hk1 h])
    · exact h
    · exact absurd hpre (by simp [hk4 j hstj h])
  simp [hk, hkj]

/-- When `needle` occurs nowhere in `hay`, `indexOf` returns `-1` whatever the
search-start argument is. -/
theorem jsIndexOfFrom_eq_neg_one {hay needle : List Char} (st : Int)
    (h : ∀ j, j ≤ hay.length → needle.isPrefixOf (hay.drop j) = false) :
    jsIndexOfFrom hay needle st = -1 := by
  unfold jsIndexOfFrom
  cases hidx : idxFrom hay needle (jsClamp st hay.length)
      (hay.length + 1 - jsClamp st hay.length) with
  | none => rfl
  | some k =>
    obtain ⟨hk1, hk2, hk3, _⟩ := idxFrom_some _ _ _ hidx
    have hcl : jsClamp st hay.length ≤ hay.length := jsClamp_le st hay.length
    have hkle : k ≤ hay.length := by omega
    exact absurd hk3 (by simp [h k hkle])

theorem jsIndexOf_nonneg_iff {hay needle : List Char} :
    0 ≤ jsIndexOf hay needle ↔
      ∃ j, j ≤ hay.length ∧ needle.isPrefixOf (hay.drop j) = true := by
  constructor
  · intro h
    unfold jsIndexOf jsIndexOfFrom at h
    cases hidx : idxFrom hay needle (jsClamp 0 hay.length)
        (hay.length + 1 - jsClamp 0 hay.length) with
    | none => rw [hidx] at h; simp at h
    | some k =>
      obtain ⟨_, hk2, hk3, _⟩ := idxFrom_some _ _ _ hidx
      have hcl : jsClamp 0 hay.length ≤ hay.length := jsClamp_le 0 hay.length
      exact ⟨k, by omega, hk3⟩
  · rintro ⟨j, hj, hpre⟩
    unfold jsIndexOf jsIndexOfFrom
    have h0 : jsClamp 0 hay.length = 0 := by simp [jsClamp]
    rw [h0]
    have hsome := idxFrom_isSome (hay.length + 1 - 0) 0 j (Nat.zero_le j) (by omega) hpre
    obtain ⟨k, hk⟩ := Option.isSome_iff_exists.mp hsome
    simp only [Nat.sub_zero] at hk ⊢
    rw [hk]
    exact Int.natCast_nonneg k

theorem exists_occurrence_iff_substring {hay needle : List Char} :
    (∃ j, j ≤ hay.length ∧ needle.isPrefixOf (hay.drop j) = true) ↔
      needle <:+: hay := by
  constructor
  · rintro ⟨j, _, hpre⟩
    obtain ⟨t, ht⟩ := List.isPrefixOf_iff_prefix.mp hpre
    exact ⟨hay.take j, t, by rw [List.append_assoc, ht, List.take_append_drop]⟩
  · rintro ⟨s, t, hst⟩
    refine ⟨s.length, ?_, ?_⟩
    · rw [← hst]; simp
    · rw [← hst, List.append_assoc, List.drop_left]
      exact List.isPrefixOf_iff_prefix.mpr ⟨t, rfl⟩

theorem jsIncludes_iff_substring {hay needle : List Char} :
    jsIncludes hay needle = true ↔ needle <:+: hay := by
  rw [jsIncludes, decide_eq_true_iff, jsIndexOf_nonneg_iff, exists_occurrence_iff_substring]

theorem singleton_substring_iff_mem {c : Char} {s : List Char} :
    [c] <:+: s ↔ c ∈ s := by
  constructor
  · rintro ⟨l, r, h⟩
    rw [← h]
    simp
  · intro h
    obtain ⟨l, r, h⟩ := List.append_of_mem h
    exact ⟨l, r, by simp [h]⟩

/-! ### Embedding of `src/enums/template-type.ts` and the template table -/

/-- The five template kinds of the extension. -/
inductive TemplateType where
  | Window
  | UserControl
  | TemplatedControl
  | Styles
  | ResourceDictionary
deriving DecidableEq

/-- `TemplateConfig` (`src/types/template-config.ts`). -/
structure TemplateConfig where
  typeName : String
  dotnetTemplate : String
  supportsViewModel : Bool
  requiresNamespaceUpdate : Bool
deriving DecidableEq

/-- `getTemplateConfiguration` (`extension.ts`, lines 109–146). -/
def getTemplateConfiguration : TemplateType → TemplateConfig
  | .Window => ⟨"Window", "avalonia.window", true, true⟩
  | .UserControl => ⟨"UserControl", "avalonia.usercontrol", true, true⟩
  | .TemplatedControl => ⟨"TemplatedControl", "avalonia.templatedcontrol", false, true⟩
  | .Styles => ⟨"Styles", "avalonia.styles", false, false⟩
  | .ResourceDictionary => ⟨"ResourceDictionary", "avalonia.resource", false, false⟩

/-! ### Embedding of `updateTemplateNamespaces` (lines 224–245): the marker
strings chosen for the markup (`.axaml`) file. -/

/-- `frontendModifiedStartContent` (line 237–238). -/
def frontendModifiedStartContent (templateType : TemplateType) : List Char :=
  if templateType = TemplateType.TemplatedControl then "xmlns:controls=\"using:".data
  else "x:Class=\"".data

/-- `frontendModifiedEndContent` (line 239). -/
def frontendModifiedEndContent (templateType : TemplateType) : List Char :=
  if templateType = TemplateType.TemplatedControl then "\">".data else "\"".data

/-! ### Embedding of `changeFileContent` (lines 468–494).

The file-system read and write are stripped: the function below maps the file
content read at `args.filePath` to the content written back.  All other
computation is kept verbatim. -/

/-- The `namespaceToUse` selection of lines 476–479. -/
def namespaceToUse (isCSharpFile : Bool) (templateType : TemplateType)
    (xamlNameSpace csharpNameSpace : List Char) : List Char :=
  if isCSharpFile || templateType = TemplateType.TemplatedControl then csharpNameSpace
  else xamlNameSpace

/-- `changeFileContent` (lines 472–482) as a pure content transformation. -/
def changeFileContent (fileContent startContent endContent : List Char)
    (isCSharpFile : Bool) (templateType : TemplateType)
    (xamlNameSpace csharpNameSpace : List Char) : List Char :=
  let modifiedStartIndex : Int := jsIndexOf fileContent startContent + startContent.length
  let modifiedEndIndex : Int := jsIndexOfFrom fileContent endContent modifiedStartIndex
  jsSubstring fileContent 0 modifiedStartIndex
    ++ namespaceToUse isCSharpFile templateType xamlNameSpace csharpNameSpace
    ++ jsSubstringFrom fileContent modifiedEndIndex

/-! ### Embedding of `constructNamespace` (lines 359–383). -/

/-- `constructNamespace`: `relativePath` stands for the result of
`path.relative(solutionDir, createPath)` and `sep` for `path.sep`; the rest of
the body is translated verbatim (split on the separator, drop empty segments,
dot-join, append the file name, prepend the project name for a project-only
root). -/
def constructNamespace (relativePath : List Char) (sep : Char)
    (fileName : List Char) (isSolutionDir : Bool) (projectName : List Char) :
    List Char :=
  let ns0 := jsJoin ['.'] ((jsSplit sep relativePath).filter (fun part => part ≠ []))
  let ns1 := if ns0 ≠ [] then ns0 ++ '.' :: fileName else fileName
  if !isSolutionDir && projectName ≠ [] then projectName ++ '.' :: ns1 else ns1

/-! ### Embedding of `findNameSpaces` (lines 308–334) and its helpers. -/

/-- The `csharpNameSpace` derivation of line 332. -/
def csharpNameSpaceOf (ns : List Char) : List Char :=
  if jsIncludes ns ['.'] then jsSubstring ns 0 (jsLastIndexOf ns ['.']) else ns

mutual
/-- A directory tree: a name, the plain files of the directory, and its
subdirectories (in listing order). -/
inductive DirTree where
  | node (name : String) (files : List String) (subdirs : DirForest)

/-- A list of sibling directories, in listing order. -/
inductive DirForest where
  | nil
  | cons (d : DirTree) (rest : DirForest)
end

def DirTree.name : DirTree → String
  | .node n _ _ => n

def DirTree.files : DirTree → List String
  | .node _ f _ => f

def DirTree.subdirs : DirTree → DirForest
  | .node _ _ s => s

/-- `containsSolutionOrProject` (lines 404–414): the directory listing has a
file ending in `.sln` or `.csproj`. -/
def containsSolutionOrProject (dir : DirTree) : Bool :=
  dir.files.any (fun file =>
    jsEndsWith file.data ".sln".data || jsEndsWith file.data ".csproj".data)

mutual
/-- `findSolutionOrProjectRecursive` (lines 419–447): scan the directory's
entries in order; a subdirectory that contains a marker is returned at once,
otherwise it is recursed into before its later siblings are examined.  The
result carries the found directory's path (as segments below the start
directory) together with its subtree. -/
def findSolutionOrProjectRecursive : DirTree → List String → Option (List String × DirTree)
  | .node _ _ subdirs, dirPath => findInSubdirs subdirs dirPath

/-- The `for (const item of items)` loop body of lines 425–440. -/
def findInSubdirs : DirForest → List String → Option (List String × DirTree)
  | .nil, _ => none
  | .cons d rest, dirPath =>
    if containsSolutionOrProject d then some (dirPath ++ [d.name], d)
    else
      match findSolutionOrProjectRecursive d (dirPath ++ [d.name]) with
      | some result => some result
      | none => findInSubdirs rest dirPath
end

/-- `findSolutionOrProjectDirectory` (lines 388–399): the start directory is
tested first; only when it has no marker is the recursive descent used. -/
def findSolutionOrProjectDirectory (startDir : DirTree) : Option (List String × DirTree) :=
  if containsSolutionOrProject startDir then some ([], startDir)
  else findSolutionOrProjectRecursive startDir []

/-- `analyzeSolutionDirectory` (lines 339–354): `.sln` presence decides
solution-root status; otherwise the first `.csproj` file (with the first
occurrence of `".csproj"` removed, as `String.replace` does) names the
project. -/
def analyzeSolutionDirectory (solutionDir : DirTree) : Bool × List Char :=
  let isSolutionDir := solutionDir.files.any (fun file => jsEndsWith file.data ".sln".data)
  let projectName :=
    if isSolutionDir then []
    else
      match solutionDir.files.find? (fun file => jsEndsWith file.data ".csproj".data) with
      | some csprojFile => jsReplaceFirst csprojFile.data ".csproj".data []
      | none => []
  (isSolutionDir, projectName)

/-- The namespace pair returned by `findNameSpaces` (lines 330–333). -/
structure NamespacePair where
  xamlNameSpace : List Char
  csharpNameSpace : List Char
deriving DecidableEq

/-- `findNameSpaces` (lines 308–334).  `tree` is the directory tree rooted at
`projectPath` and `relativeOf` stands for the external
`path.relative(solutionDir, createPath)` computation, fed with the path of the
directory the locator found.  A `null` locator result becomes the thrown
`"Solution or project file not found in workspace."` error; an empty
constructed namespace becomes the thrown `"Namespace not found."` error. -/
def findNameSpaces (tree : DirTree) (relativeOf : List String → List Char)
    (sep : Char) (fileName : List Char) : Except String NamespacePair :=
  match findSolutionOrProjectDirectory tree with
  | none => .error "Solution or project file not found in workspace."
  | some (solutionDirPath, solutionDir) =>
    let analysis := analyzeSolutionDirectory solutionDir
    let ns := constructNamespace (relativeOf solutionDirPath) sep fileName
      analysis.1 analysis.2
    if ns = [] then .error "Namespace not found."
    else .ok ⟨ns, csharpNameSpaceOf ns⟩

/-! ### Embedding of `inheritFromViewModelBaseIfExists` (lines 601–650).

The function below is the content transformation applied to the view-model
file once `ViewModelBase.cs` has been found: `viewModelBaseNamespace` and
`viewModelNamespace` are the (nullable) results of the two regex scans of
lines 618–619, and the returned list is what line 648 writes back. -/

def inheritContentTransform (fileContent viewModelFileName : List Char)
    (viewModelBaseNamespace viewModelNamespace : Option (List Char)) : List Char :=
  let fc1 :=
    match viewModelBaseNamespace, viewModelNamespace with
    | some baseNs, some vmNs =>
      if baseNs ≠ vmNs then
        let usingStatement := "using ".data ++ baseNs ++ ";\r\n\r\n".data
        let namespaceIndex := jsIndexOf fileContent "namespace ".data
        if namespaceIndex ≠ -1 then
          jsSubstring fileContent 0 namespaceIndex ++ usingStatement
            ++ jsSubstringFrom fileContent namespaceIndex
        else fileContent
      else fileContent
    | _, _ => fileContent
  let startIndex := jsIndexOf fc1 (" class ".data ++ viewModelFileName)
  let endIndex := jsIndexOfFrom fc1 "\x7b".data startIndex
  jsSubstring fc1 0 startIndex
    ++ " class ".data ++ viewModelFileName ++ " : ViewModelBase\r\n".data
    ++ jsSubstringFrom fc1 endIndex

/-! ### Embedding of `createViewModel` (lines 516–596): the view-model file
name and the Views → ViewModels directory mirroring. -/

/-- The view-model file name computation of line 551. -/
def viewModelFileName (viewName : List Char) : List Char :=
  if jsEndsWith (jsToLowerCase viewName) "view".data then viewName ++ "Model".data
  else viewName ++ "ViewModel".data

/-- Model of Node's `path.win32.join` for the argument shapes used by
`createViewModel`: the components are split on the backslash separator, empty
segments are dropped, and the rest are rejoined with single backslashes; a
leading backslash of the first component is preserved. -/
def pathJoin (a b : List Char) : List Char :=
  let core := jsJoin "\\".data ((jsSplit '\\' a ++ jsSplit '\\' b).filter (fun part => part ≠ []))
  if a.head? = some '\\' then '\\' :: core else core

/-- Lines 526–546 of `createViewModel`: computes the pair
`(directoryPath, viewModelsPath)` — where the view-model is created and where
`ViewModelBase.cs` is looked for. -/
def createViewModelPaths (viewPath : List Char) : List Char × List Char :=
  if jsIncludes (jsToLowerCase viewPath) "\\views".data then
    let viewsIndex := jsIndexOf (jsToLowerCase viewPath) "\\views".data
    let basePath := jsSubstring viewPath 0 viewsIndex
    let viewModelsPath := pathJoin basePath "ViewModels".data
    let viewsSubPath := jsSubstringFrom viewPath (viewsIndex + ("\\views".data.length : Int))
    (pathJoin viewModelsPath viewsSubPath, viewModelsPath)
  else (viewPath, viewPath)

/-! ### Spec-side characterisations -/

/-- `j` is the first index at or after `st` at which `needle` occurs in
`hay` (the specification's "first occurrence of the marker at or after that
point"). -/
def firstOccurFrom (hay needle : List Char) (st j : Nat) : Prop :=
  st ≤ j ∧ needle.isPrefixOf (hay.drop j) = true ∧
    ∀ k < j, st ≤ k → needle.isPrefixOf (hay.drop k) = false

instance (hay needle : List Char) (st j : Nat) :
    Decidable (firstOccurFrom hay needle st j) := by
  unfold firstOccurFrom
  infer_instance

theorem firstOccurFrom_add_length_le {hay needle : List Char} {st j : Nat}
    (h : firstOccurFrom hay needle st j) (hst : st ≤ hay.length) :
    j + needle.length ≤ hay.length := by
  obtain ⟨h1, h2, h3⟩ := h
  have hpre := List.isPrefixOf_iff_prefix.mp h2
  have hlen := hpre.length_le
  rw [List.length_drop] at hlen
  by_cases hj : j ≤ hay.length
  · omega
  · exfalso
    have hdrop : hay.drop j = [] := List.drop_eq_nil_of_le (by omega)
    rw [hdrop] at hpre
    have hnil : needle = [] := List.prefix_nil.mp hpre
    have hcon := h3 st (by omega) le_rfl
    rw [hnil] at hcon
    simp at hcon

/-- Core property of `changeFileContent`: when the start marker first occurs
at `i` and the end marker first occurs at `e` at or after the start marker's
end, the output is the input with exactly the span `[i + |start|, e)` replaced
by the selected namespace. -/
theorem changeFileContent_region {text sc ec xamlNs csharpNs : List Char}
    {isCSharpFile : Bool} {templateType : TemplateType} {i e : Nat}
    (h1 : firstOccurFrom text sc 0 i)
    (h2 : firstOccurFrom text ec (i + sc.length) e) :
    changeFileContent text sc ec isCSharpFile templateType xamlNs csharpNs =
      text.take (i + sc.length)
        ++ namespaceToUse isCSharpFile templateType xamlNs csharpNs
        ++ text.drop e := by
  have hi : i + sc.length ≤ text.length :=
    firstOccurFrom_add_length_le h1 (Nat.zero_le _)
  have he : e + ec.length ≤ text.length := firstOccurFrom_add_length_le h2 hi
  obtain ⟨h11, h12, h13⟩ := h1
  obtain ⟨h21, h22, h23⟩ := h2
  have hidx1 : jsIndexOf text sc = (i : Int) :=
    jsIndexOfFrom_eq_of_first (Nat.zero_le _) (by omega) h11 h12
      (fun k hk1 hk2 => h13 k hk2 hk1)
  have hidx2 : jsIndexOfFrom text ec ((i + sc.length : Nat) : Int) = (e : Int) :=
    jsIndexOfFrom_eq_of_first hi (by omega) h21 h22
      (fun k hk1 hk2 => h23 k hk2 hk1)
  have hcast : jsIndexOf text sc + (sc.length : Int) = ((i + sc.length : Nat) : Int) := by
    rw [hidx1]; push_cast; ring
  simp only [changeFileContent, hcast, hidx2]
  rw [jsSubstring_zero_natCast text (i + sc.length) hi, jsSubstringFrom_natCast]

/-! ### Claim C1 -/

/-- C1: the claim states that when either marker is absent the
region-substitution operation fails with a marker-not-found error and produces
no substituted text.  The code does the opposite: with both markers absent
from `"abc"`, `changeFileContent` raises no error and silently produces the
substituted text `"NSabc"` (both `indexOf` calls return `-1`, the start of the
span defaults to `-1 + startContent.length` and `substring` clamps the `-1`
end index to `0`).  This theorem evaluates the code at that failing input. -/
theorem changeFileContent_substitutes_when_markers_missing :
    jsIncludes "abc".data "X".data = false ∧
    jsIncludes "abc".data "Y".data = false ∧
    changeFileContent "abc".data "X".data "Y".data false TemplateType.Window
        "NS".data "NS".data = "NSabc".data ∧
    changeFileContent "abc".data "X".data "Y".data false TemplateType.Window
        "NS".data "NS".data ≠ "abc".data := by
  refine ⟨by decide, by decide, by decide, by decide⟩

/-! ### Claim C2 -/

/-- C2: when the start marker first occurs at `i` and the end marker first
occurs at `e` at or after the start marker's end, `changeFileContent` replaces
exactly the span strictly between the end of the start-marker occurrence and
the end-marker occurrence with the substituted namespace; every character
before that span (the start marker included) and every character from the end
marker onward (the end marker included) is identical to the input. -/
theorem changeFileContent_replaces_exact_region
    (text startContent endContent xamlNs csharpNs : List Char)
    (isCSharpFile : Bool) (templateType : TemplateType) (i e : Nat)
    (h1 : firstOccurFrom text startContent 0 i)
    (h2 : firstOccurFrom text endContent (i + startContent.length) e) :
    changeFileContent text startContent endContent isCSharpFile templateType
        xamlNs csharpNs =
      text.take (i + startContent.length)
        ++ namespaceToUse isCSharpFile templateType xamlNs csharpNs
        ++ text.drop e :=
  changeFileContent_region h1 h2

/-- Witness for C2 at the specification's scenario: `x:Class="Old.Ns.Foo"`
with markers `x:Class="` and `"` becomes `x:Class="New.Ns.Foo"`. -/
theorem changeFileContent_replaces_exact_region_witness :
    changeFileContent "x:Class=\"Old.Ns.Foo\"".data "x:Class=\"".data "\"".data
        false TemplateType.Window "New.Ns.Foo".data "New.Ns".data =
      "x:Class=\"New.Ns.Foo\"".data :=
  (changeFileContent_replaces_exact_region "x:Class=\"Old.Ns.Foo\"".data
      "x:Class=\"".data "\"".data "New.Ns.Foo".data "New.Ns".data false
      TemplateType.Window 0 19 (by decide) (by decide)).trans (by decide)

/-! ### Claim C3 -/

theorem jsJoin_append_singleton (sep x : List Char) :
    ∀ l : List (List Char),
      jsJoin sep (l ++ [x]) = if l = [] then x else jsJoin sep l ++ sep ++ x
  | [] => by simp [jsJoin]
  | [a] => by simp [jsJoin]
  | a :: b :: t => by
    have ih := jsJoin_append_singleton sep x (b :: t)
    rw [if_neg (by simp)] at ih
    calc jsJoin sep ((a :: b :: t) ++ [x])
        = a ++ sep ++ jsJoin sep ((b :: t) ++ [x]) := rfl
      _ = a ++ sep ++ (jsJoin sep (b :: t) ++ sep ++ x) := by rw [ih]
      _ = if a :: b :: t = [] then x else jsJoin sep (a :: b :: t) ++ sep ++ x := by
          rw [if_neg (by simp)]
          simp [jsJoin, List.append_assoc]

theorem jsJoin_dot_ne_nil :
    ∀ {segs : List (List Char)}, (∀ p ∈ segs, p ≠ []) → segs ≠ [] →
      jsJoin ['.'] segs ≠ []
  | [], _, hs => absurd rfl hs
  | [a], h, _ => by simpa [jsJoin] using h a (by simp)
  | a :: b :: t, _, _ => by simp [jsJoin]

/-- C3: the built namespace is the non-empty segments of the relative path
dot-joined with the entity name appended (just the entity name when there are
no segments) — equivalently, the dot-join of `segments ++ [entityName]` —
and a project-only root with non-empty project name `P` prefixes `P.`, so the
result then starts with `P.`. -/
theorem constructNamespace_correct (relativePath : List Char) (sep : Char)
    (fileName projectName : List Char) (hpn : projectName ≠ []) :
    constructNamespace relativePath sep fileName true projectName =
      jsJoin ['.']
        (((jsSplit sep relativePath).filter (fun part => part ≠ [])) ++ [fileName]) ∧
    constructNamespace relativePath sep fileName false projectName =
      projectName ++ '.' ::
        jsJoin ['.']
          (((jsSplit sep relativePath).filter (fun part => part ≠ [])) ++ [fileName]) ∧
    (projectName ++ ['.']) <+:
      constructNamespace relativePath sep fileName false projectName := by
  set segs := (jsSplit sep relativePath).filter (fun part => part ≠ []) with hsegs
  have hmem : ∀ p ∈ segs, p ≠ [] := by
    intro p hp
    have := List.mem_filter.mp (hsegs ▸ hp)
    simpa using this.2
  have hjoin :
      (if jsJoin ['.'] segs ≠ [] then jsJoin ['.'] segs ++ '.' :: fileName else fileName) =
        jsJoin ['.'] (segs ++ [fileName]) := by
    rw [jsJoin_append_singleton]
    by_cases hn : segs = []
    · simp [hn, jsJoin]
    · have hne := jsJoin_dot_ne_nil hmem hn
      simp [hn, hne, List.append_assoc]
  have htrue : constructNamespace relativePath sep fileName true projectName =
      (if jsJoin ['.'] segs ≠ [] then jsJoin ['.'] segs ++ '.' :: fileName
       else fileName) := by
    simp only [constructNamespace, ← hsegs]
    rw [if_neg (by simp)]
  have hfalse : constructNamespace relativePath sep fileName false projectName =
      projectName ++ '.' ::
        (if jsJoin ['.'] segs ≠ [] then jsJoin ['.'] segs ++ '.' :: fileName
         else fileName) := by
    simp only [constructNamespace, ← hsegs]
    rw [if_pos (by simp [hpn])]
  refine ⟨htrue.trans hjoin, hfalse.trans (by rw [hjoin]), ?_⟩
  rw [hfalse]
  have hsplit : projectName ++ '.' ::
      (if jsJoin ['.'] segs ≠ [] then jsJoin ['.'] segs ++ '.' :: fileName
       else fileName) =
      (projectName ++ ['.']) ++
        (if jsJoin ['.'] segs ≠ [] then jsJoin ['.'] segs ++ '.' :: fileName
         else fileName) := by
    simp
  rw [hsplit]
  exact List.prefix_append _ _

/-- Witness for C3 at the specification's scenario: relative path
`Views/UserControls`, entity `SomeUserControl`, project root `App` →
`App.Views.UserControls.SomeUserControl`, which starts with `App.`. -/
theorem constructNamespace_correct_witness :
    constructNamespace "Views/UserControls".data '/' "SomeUserControl".data
        false "App".data = "App.Views.UserControls.SomeUserControl".data ∧
    ("App".data ++ ['.']) <+:
      constructNamespace "Views/UserControls".data '/' "SomeUserControl".data
        false "App".data :=
  ⟨((constructNamespace_correct "Views/UserControls".data '/'
      "SomeUserControl".data "App".data (by decide)).2.1).trans (by decide),
   (constructNamespace_correct "Views/UserControls".data '/'
      "SomeUserControl".data "App".data (by decide)).2.2⟩

/-! ### Claim C4 -/

theorem jsLastIndexOfAux_none_dot :
    ∀ {s : List Char}, jsLastIndexOfAux ['.'] s = none → '.' ∉ s
  | [], _ => by simp
  | c :: rest, h => by
    unfold jsLastIndexOfAux at h
    cases haux : jsLastIndexOfAux ['.'] rest with
    | some j => rw [haux] at h; simp at h
    | none =>
      rw [haux] at h
      by_cases hp : ['.'].isPrefixOf (c :: rest) = true
      · rw [if_pos hp] at h; simp at h
      · have hc : c ≠ '.' := by
          intro hcc
          apply hp
          simp [hcc, List.isPrefixOf]
        have hrest := jsLastIndexOfAux_none_dot haux
        simp only [List.mem_cons, not_or]
        exact ⟨fun hcc => hc hcc.symm, hrest⟩

theorem jsLastIndexOfAux_some_dot :
    ∀ {s : List Char} {i : Nat}, jsLastIndexOfAux ['.'] s = some i →
      i < s.length ∧ ∃ t, s = s.take i ++ '.' :: t ∧ '.' ∉ t
  | [], i, h => by simp [jsLastIndexOfAux] at h
  | c :: rest, i, h => by
    unfold jsLastIndexOfAux at h
    cases haux : jsLastIndexOfAux ['.'] rest with
    | some j =>
      rw [haux] at h
      obtain rfl : j + 1 = i := by injection h
      obtain ⟨hlt, t, hdec, hnd⟩ := jsLastIndexOfAux_some_dot haux
      refine ⟨by simp only [List.length_cons]; omega, t, ?_, hnd⟩
      calc c :: rest = c :: (rest.take j ++ '.' :: t) := by rw [← hdec]
        _ = (c :: rest).take (j + 1) ++ '.' :: t := by simp
    | none =>
      rw [haux] at h
      by_cases hp : ['.'].isPrefixOf (c :: rest) = true
      · rw [if_pos hp] at h
        obtain rfl : 0 = i := by injection h
        have hc : c = '.' := by
          obtain ⟨t2, ht⟩ := List.isPrefixOf_iff_prefix.mp hp
          have hhead : ('.' : Char) = c := by
            simpa using congrArg List.head? ht
          exact hhead.symm
        exact ⟨by simp, rest, by simp [hc], jsLastIndexOfAux_none_dot haux⟩
      · rw [if_neg hp] at h
        simp at h

/-- C4: the derived `csharpNameSpace` is the full namespace truncated at its
last dot when a dot occurs (so the remainder after it contains no further
dot), and the full namespace unchanged otherwise; consequently the full
namespace starts with `csharpNameSpace ++ "."` whenever it contains a dot. -/
theorem csharpNameSpace_truncates_at_last_dot (ns : List Char) :
    ('.' ∈ ns → ∃ t, ns = csharpNameSpaceOf ns ++ '.' :: t ∧ '.' ∉ t) ∧
    ('.' ∈ ns → (csharpNameSpaceOf ns ++ ['.']) <+: ns) ∧
    ('.' ∉ ns → csharpNameSpaceOf ns = ns) := by
  by_cases hmem : '.' ∈ ns
  · have hInc : jsIncludes ns ['.'] = true :=
      jsIncludes_iff_substring.mpr (singleton_substring_iff_mem.mpr hmem)
    cases haux : jsLastIndexOfAux ['.'] ns with
    | none => exact absurd hmem (jsLastIndexOfAux_none_dot haux)
    | some i =>
      obtain ⟨hilt, t, hdec, hnd⟩ := jsLastIndexOfAux_some_dot haux
      have hcs : csharpNameSpaceOf ns = ns.take i := by
        unfold csharpNameSpaceOf jsLastIndexOf
        rw [haux, if_pos hInc]
        exact jsSubstring_zero_natCast ns i (by omega)
      refine ⟨fun _ => ⟨t, by rw [hcs, ← hdec], hnd⟩, fun _ => ?_, fun h => absurd hmem h⟩
      rw [hcs]
      exact ⟨t, by rw [List.append_assoc]; exact hdec.symm⟩
  · have hInc : jsIncludes ns ['.'] = false := by
      rw [Bool.eq_false_iff]
      intro h
      exact hmem (singleton_substring_iff_mem.mp (jsIncludes_iff_substring.mp h))
    have hcs : csharpNameSpaceOf ns = ns := by
      unfold csharpNameSpaceOf
      rw [hInc]
      simp
    exact ⟨fun h => absurd h hmem, fun h => absurd h hmem, fun _ => hcs⟩

/-- Witness for C4: `App.Views.SomeControl` truncates to `App.Views`, a
dotted prefix of the full namespace. -/
theorem csharpNameSpace_truncates_at_last_dot_witness :
    csharpNameSpaceOf "App.Views.SomeControl".data = "App.Views".data ∧
    (csharpNameSpaceOf "App.Views.SomeControl".data ++ ['.']) <+:
      "App.Views.SomeControl".data :=
  ⟨by decide, (csharpNameSpace_truncates_at_last_dot _).2.1 (by decide)⟩

/-! ### Claim C5 -/

mutual
/-- Spec-side (§4.1): the depth-first pre-order listing of the proper
descendants of a directory, each paired with its path. -/
def descendantsPreorder : DirTree → List String → List (List String × DirTree)
  | .node _ _ subdirs, dirPath => subdirsPreorder subdirs dirPath

def subdirsPreorder : DirForest → List String → List (List String × DirTree)
  | .nil, _ => []
  | .cons d rest, dirPath =>
    (dirPath ++ [d.name], d) ::
      (descendantsPreorder d (dirPath ++ [d.name]) ++ subdirsPreorder rest dirPath)
end

/-- Spec-side (§4.1): the full visit order of the locator — the start
directory first, then its descendants in depth-first pre-order (each directory
visited before its own children). -/
def preorder (t : DirTree) : List (List String × DirTree) :=
  ([], t) :: descendantsPreorder t []

mutual
theorem findSolutionOrProjectRecursive_eq_find? :
    ∀ (t : DirTree) (p : List String),
      findSolutionOrProjectRecursive t p =
        (descendantsPreorder t p).find? (fun pd => containsSolutionOrProject pd.2)
  | .node n f subdirs, p => by
    rw [findSolutionOrProjectRecursive, descendantsPreorder]
    exact findInSubdirs_eq_find? subdirs p

theorem findInSubdirs_eq_find? :
    ∀ (l : DirForest) (p : List String),
      findInSubdirs l p =
        (subdirsPreorder l p).find? (fun pd => containsSolutionOrProject pd.2)
  | .nil, p => by rw [findInSubdirs, subdirsPreorder]; rfl
  | .cons d rest, p => by
    rw [findInSubdirs, subdirsPreorder, List.find?_cons]
    by_cases hm : containsSolutionOrProject d = true
    · simp [hm]
    · have ih1 := findSolutionOrProjectRecursive_eq_find? d (p ++ [d.name])
      have ih2 := findInSubdirs_eq_find? rest p
      rw [if_neg hm, ih1, ih2]
      simp only [Bool.not_eq_true] at hm
      rw [hm]
      rw [List.find?_append]
      cases hfind : (descendantsPreorder d (p ++ [d.name])).find?
          (fun pd => containsSolutionOrProject pd.2) with
      | some r => simp [Option.or]
      | none => simp [Option.or]
end

/-- C5: the root locator returns exactly the first directory, in the visit
order "start directory first, then depth-first pre-order over the
subdirectories with each directory's own listing checked before its
children", whose listing contains a `.sln`/`.csproj` marker (`none` when no
directory qualifies).  In particular a start directory that itself holds a
marker is returned immediately. -/
theorem findSolutionOrProjectDirectory_first_in_preorder (startDir : DirTree) :
    findSolutionOrProjectDirectory startDir =
      (preorder startDir).find? (fun pd => containsSolutionOrProject pd.2) := by
  rw [findSolutionOrProjectDirectory, preorder, List.find?_cons]
  by_cases hm : containsSolutionOrProject startDir = true
  · simp [hm]
  · rw [if_neg hm]
    simp only [Bool.not_eq_true] at hm
    rw [hm]
    exact findSolutionOrProjectRecursive_eq_find? startDir []

/-! ### Claim C6 -/

mutual
/-- No directory in the tree contains a solution or project marker file. -/
def noMarkerInTree : DirTree → Bool
  | .node n files subdirs =>
    !containsSolutionOrProject (.node n files subdirs) && noMarkerInForest subdirs

def noMarkerInForest : DirForest → Bool
  | .nil => true
  | .cons d rest => noMarkerInTree d && noMarkerInForest rest
end

mutual
theorem findSolutionOrProjectRecursive_eq_none_of_noMarker :
    ∀ (t : DirTree) (p : List String), noMarkerInTree t = true →
      findSolutionOrProjectRecursive t p = none
  | .node n f subdirs, p, h => by
    rw [findSolutionOrProjectRecursive]
    rw [noMarkerInTree, Bool.and_eq_true] at h
    exact findInSubdirs_eq_none_of_noMarker subdirs p h.2

theorem findInSubdirs_eq_none_of_noMarker :
    ∀ (l : DirForest) (p : List String), noMarkerInForest l = true →
      findInSubdirs l p = none
  | .nil, p, _ => by rw [findInSubdirs]
  | .cons d rest, p, h => by
    rw [noMarkerInForest, Bool.and_eq_true] at h
    have hd : noMarkerInTree d = true := h.1
    have hm : containsSolutionOrProject d = false := by
      cases d with
      | node n f s =>
        rw [noMarkerInTree, Bool.and_eq_true] at hd
        simpa using hd.1
    rw [findInSubdirs, if_neg (by simp [hm])]
    rw [findSolutionOrProjectRecursive_eq_none_of_noMarker d (p ++ [d.name]) h.1]
    exact findInSubdirs_eq_none_of_noMarker rest p h.2
end

/-- C6 counterexample: the claim asserts that root location signals NotFound
"as a distinct error kind (not a null value)".  In the source
`findSolutionOrProjectDirectory` returns `null` (here: `none`) on a markerless
tree — the distinct error value only arises later, in `findNameSpaces`. -/
theorem findSolutionOrProjectDirectory_returns_null :
    findSolutionOrProjectDirectory
        (DirTree.node "workspace" ["readme.md"] DirForest.nil) = none := rfl

/-- C6 (amended): on a tree none of whose directories contains a marker file,
the locator returns the null-like `none`, and the namespace-finding caller
turns exactly this into the thrown fatal "Solution or project file not found
in workspace." error — the condition is never swallowed or defaulted. -/
theorem findNameSpaces_fatal_error_when_no_marker (tree : DirTree)
    (relativeOf : List String → List Char) (sep : Char) (fileName : List Char)
    (h : noMarkerInTree tree = true) :
    findSolutionOrProjectDirectory tree = none ∧
    findNameSpaces tree relativeOf sep fileName =
      .error "Solution or project file not found in workspace." := by
  have hm : containsSolutionOrProject tree = false := by
    cases tree with
    | node n f s =>
      rw [noMarkerInTree, Bool.and_eq_true] at h
      simpa using h.1
  have hdir : findSolutionOrProjectDirectory tree = none := by
    rw [findSolutionOrProjectDirectory, if_neg (by simp [hm])]
    exact findSolutionOrProjectRecursive_eq_none_of_noMarker tree [] h
  refine ⟨hdir, ?_⟩
  rw [findNameSpaces, hdir]

/-- Witness for C6 at a concrete markerless two-level tree. -/
theorem findNameSpaces_fatal_error_when_no_marker_witness :
    findSolutionOrProjectDirectory
        (DirTree.node "ws" ["notes.txt"]
          (DirForest.cons (DirTree.node "sub" ["a.cs"] DirForest.nil)
            DirForest.nil)) = none ∧
    findNameSpaces
        (DirTree.node "ws" ["notes.txt"]
          (DirForest.cons (DirTree.node "sub" ["a.cs"] DirForest.nil)
            DirForest.nil))
        (fun _ => []) '/' "MainWindow".data =
      .error "Solution or project file not found in workspace." :=
  findNameSpaces_fatal_error_when_no_marker
    (DirTree.node "ws" ["notes.txt"]
      (DirForest.cons (DirTree.node "sub" ["a.cs"] DirForest.nil) DirForest.nil))
    (fun _ => []) '/' "MainWindow".data (by decide)

/-! ### Claim C7 -/

/-- C7: the claim states that when the ` class <name>` token is absent the
inheritance injection fails with a declaration-not-found error and leaves the
content unchanged.  The code has no such check: `indexOf` yields `-1` for the
missing token, `substring(0, -1)` clamps to the empty prefix, and the whole
original content is re-appended after the fabricated inheritance clause — a
silently corrupted file, no error.  This theorem evaluates the code at such a
failing input. -/
theorem inheritContentTransform_corrupts_without_class_token :
    jsIndexOf "hello".data (" class ".data ++ "Foo".data) = -1 ∧
    inheritContentTransform "hello".data "Foo".data none none =
      " class Foo : ViewModelBase\r\nhello".data ∧
    inheritContentTransform "hello".data "Foo".data none none ≠ "hello".data := by
  refine ⟨by decide, by decide, by decide⟩

/-! ### Claim C8 -/

/-- The markup-file (`*.axaml`) call of `changeNamespaces` (lines 281–290):
`changeFileContent` applied with the frontend markers of
`updateTemplateNamespaces` and `isCSharpFile: false`. -/
def frontendContentTransform (templateType : TemplateType)
    (fileContent xamlNameSpace csharpNameSpace : List Char) : List Char :=
  changeFileContent fileContent (frontendModifiedStartContent templateType)
    (frontendModifiedEndContent templateType) false templateType
    xamlNameSpace csharpNameSpace

/-- C8: the markup file of a TemplatedControl receives the `csharpNameSpace`
(the namespace with the entity segment removed), every other namespace-updated
template type's markup file receives the full `xamlNameSpace`; and the
TemplatedControl markup markers are `xmlns:controls="using:` and `">` while
all other template types use `x:Class="` and `"`. -/
theorem frontend_markup_namespace_choice (templateType : TemplateType)
    (fileContent xamlNameSpace csharpNameSpace : List Char) (i e : Nat)
    (h1 : firstOccurFrom fileContent (frontendModifiedStartContent templateType) 0 i)
    (h2 : firstOccurFrom fileContent (frontendModifiedEndContent templateType)
      (i + (frontendModifiedStartContent templateType).length) e) :
    frontendContentTransform templateType fileContent xamlNameSpace csharpNameSpace =
      fileContent.take (i + (frontendModifiedStartContent templateType).length)
        ++ (if templateType = TemplateType.TemplatedControl then csharpNameSpace
            else xamlNameSpace)
        ++ fileContent.drop e ∧
    frontendModifiedStartContent TemplateType.TemplatedControl =
      "xmlns:controls=\"using:".data ∧
    frontendModifiedEndContent TemplateType.TemplatedControl = "\">".data ∧
    ((getTemplateConfiguration templateType).requiresNamespaceUpdate = true →
      templateType ≠ TemplateType.TemplatedControl →
      frontendModifiedStartContent templateType = "x:Class=\"".data ∧
      frontendModifiedEndContent templateType = "\"".data ∧
      namespaceToUse false templateType xamlNameSpace csharpNameSpace =
        xamlNameSpace) := by
  refine ⟨?_, rfl, rfl, fun _ hne => ⟨?_, ?_, ?_⟩⟩
  · rw [frontendContentTransform, changeFileContent_region h1 h2]
    congr 1
    congr 1
    rw [namespaceToUse]
    by_cases ht : templateType = TemplateType.TemplatedControl
    · rw [if_pos (by simp [ht]), if_pos ht]
    · rw [if_neg (by simp [ht]), if_neg ht]
  · rw [frontendModifiedStartContent, if_neg hne]
  · rw [frontendModifiedEndContent, if_neg hne]
  · rw [namespaceToUse, if_neg (by simp [hne])]

/-- Witness for C8: a TemplatedControl markup file gets the code namespace
between the `using:` marker and `">`. -/
theorem frontend_markup_namespace_choice_witness :
    frontendContentTransform TemplateType.TemplatedControl
        "xmlns:controls=\"using:Old\">".data "Full.Ns.Ctl".data "Full.Ns".data =
      "xmlns:controls=\"using:Full.Ns\">".data :=
  ((frontend_markup_namespace_choice TemplateType.TemplatedControl
      "xmlns:controls=\"using:Old\">".data "Full.Ns.Ctl".data "Full.Ns".data
      0 25 (by decide) (by decide)).1).trans (by decide)

/-! ### Claim C9 -/

/-- C9: the companion view-model file name is the view name with `Model`
appended when the view name ends in `view` case-insensitively, and with
`ViewModel` appended otherwise. -/
theorem viewModelFileName_suffix_rule (viewName : List Char) :
    ("view".data <:+ jsToLowerCase viewName →
      viewModelFileName viewName = viewName ++ "Model".data) ∧
    (¬ "view".data <:+ jsToLowerCase viewName →
      viewModelFileName viewName = viewName ++ "ViewModel".data) := by
  constructor
  · intro h
    rw [viewModelFileName,
      if_pos (by rw [jsEndsWith]; exact List.isSuffixOf_iff_suffix.mpr h)]
  · intro h
    rw [viewModelFileName, if_neg ?_]
    rw [jsEndsWith]
    intro hc
    exact h (List.isSuffixOf_iff_suffix.mp hc)

/-- Witness for C9: `MainView` → `MainViewModel`; `Widget` →
`WidgetViewModel`. -/
theorem viewModelFileName_suffix_rule_witness :
    viewModelFileName "MainView".data = "MainView".data ++ "Model".data ∧
    viewModelFileName "Widget".data = "Widget".data ++ "ViewModel".data :=
  ⟨(viewModelFileName_suffix_rule "MainView".data).1 (by decide),
   (viewModelFileName_suffix_rule "Widget".data).2 (by decide)⟩

/-! ### Claim C10 -/

/-- C10: the Views → ViewModels mirroring triggers exactly when the lowercased
view path contains the backslash-separated substring `\views`; the view-model
directory is then the prefix before the first such occurrence joined with
`ViewModels` and the suffix after it, while any other path (forward-slash
paths with `/Views` included) keeps the view-model in the view's own
directory. -/
theorem createViewModelPaths_mirrors_views (viewPath : List Char) :
    (¬ "\\views".data <:+: jsToLowerCase viewPath →
      createViewModelPaths viewPath = (viewPath, viewPath)) ∧
    (∀ i, firstOccurFrom (jsToLowerCase viewPath) "\\views".data 0 i →
      createViewModelPaths viewPath =
        (pathJoin (pathJoin (viewPath.take i) "ViewModels".data)
            (viewPath.drop (i + 6)),
         pathJoin (viewPath.take i) "ViewModels".data)) := by
  have hlen : (jsToLowerCase viewPath).length = viewPath.length := by
    simp [jsToLowerCase]
  constructor
  · intro h
    have hInc : jsIncludes (jsToLowerCase viewPath) "\\views".data = false := by
      rw [Bool.eq_false_iff]
      intro hc
      exact h (jsIncludes_iff_substring.mp hc)
    simp only [createViewModelPaths]
    rw [if_neg (by simp [hInc])]
  · intro i hfo
    have hi6 : i + 6 ≤ viewPath.length := by
      have := firstOccurFrom_add_length_le hfo (Nat.zero_le _)
      rw [hlen] at this
      simpa using this
    obtain ⟨h1, h2, h3⟩ := hfo
    have hidx : jsIndexOf (jsToLowerCase viewPath) "\\views".data = (i : Int) :=
      jsIndexOfFrom_eq_of_first (Nat.zero_le _) (by omega) h1 h2
        (fun k hk1 hk2 => h3 k hk2 hk1)
    have hInc : jsIncludes (jsToLowerCase viewPath) "\\views".data = true :=
      jsIncludes_iff_substring.mpr
        (exists_occurrence_iff_substring.mp ⟨i, by omega, h2⟩)
    simp only [createViewModelPaths]
    rw [if_pos hInc, hidx,
      jsSubstring_zero_natCast viewPath i (by omega)]
    have h6 : (("\\views".data.length : Nat) : Int) = ((6 : Nat) : Int) := by decide
    rw [h6]
    have hcast : ((i : Int) + ((6 : Nat) : Int)) = ((i + 6 : Nat) : Int) := by
      push_cast
      ring
    rw [hcast, jsSubstringFrom_natCast]

/-- Witness for C10: a backslash path below `Views` is mirrored into
`ViewModels`, while a forward-slash path containing `/Views` is left in
place. -/
theorem createViewModelPaths_mirrors_views_witness :
    createViewModelPaths "C:\\Proj\\Views\\Sub".data =
      ("C:\\Proj\\ViewModels\\Sub".data, "C:\\Proj\\ViewModels".data) ∧
    createViewModelPaths "/proj/Views".data =
      ("/proj/Views".data, "/proj/Views".data) :=
  ⟨((createViewModelPaths_mirrors_views "C:\\Proj\\Views\\Sub".data).2 7
      (by decide)).trans (by decide),
   (createViewModelPaths_mirrors_views "/proj/Views".data).1 (by decide)⟩

end AvTemplates
